import Mathlib

set_option maxHeartbeats 1000000

namespace UrlShortener

/-! Shallow embedding of `src/providers.rs` of the urlshortener repository.

Rust strings are modelled as `List Char`.  The source manipulates strings
only through `str::split` iterators; the iterator combinations it uses are
modelled by `splitNext` (the first segment, i.e. `.split(sep).next()` with
the `Some` that Rust's split iterator always yields on its first `next()`),
`splitNextOpt` (the same with the `Option` kept) and `splitNth1`
(`.split(sep).nth(1)`). -/

/-- Index of the first (leftmost) occurrence of `sep` in `s`; `none` when
`sep` does not occur.  An occurrence at `i` means `sep` is a prefix of
`s.drop i`. -/
def findSub (sep : List Char) : List Char → Option Nat
  | [] => if sep = [] then some 0 else none
  | c :: rest =>
    if sep.isPrefixOf (c :: rest) then some 0
    else (findSub sep rest).map (· + 1)

/-- First segment of `s.split(sep)`: everything strictly before the first
occurrence of `sep`, or all of `s` when `sep` does not occur. -/
def splitNext (sep s : List Char) : List Char :=
  match findSub sep s with
  | none => s
  | some i => s.take i

/-- Models `.split(sep).next()`: on Rust's split iterator the first `next()`
always yields `Some` (even for the empty string the iterator has one
segment). -/
def splitNextOpt (sep s : List Char) : Option (List Char) :=
  some (splitNext sep s)

/-- Models `.split(sep).nth(1)`: `none` when `sep` does not occur in `s`,
otherwise the segment between the end of the first occurrence of `sep` and
the next occurrence of `sep` (or the end of `s`). -/
def splitNth1 (sep s : List Char) : Option (List Char) :=
  (findSub sep s).map fun i => splitNext sep (s.drop (i + sep.length))

/-- All segments of Rust's `s.split(sep)` (leftmost, non-overlapping
matches), driven by a fuel argument so the recursion stays structural;
`splitAll` supplies enough fuel.  Used only to certify that `splitNext` and
`splitNth1` really are the first and second elements of the split. -/
def splitAllAux (sep : List Char) : Nat → List Char → List (List Char)
  | 0, s => [s]
  | fuel + 1, s =>
    match findSub sep s with
    | none => [s]
    | some i => s.take i :: splitAllAux sep fuel (s.drop (i + sep.length))

/-- The full segment list of `s.split(sep)`. -/
def splitAll (sep s : List Char) : List (List Char) :=
  splitAllAux sep s.length s

/-- Models `.replace("\\", "")` of the source: the pattern is the single
backslash character and the replacement is empty, so the call deletes every
backslash character. -/
def removeBackslashes : List Char → List Char
  | [] => []
  | c :: rest =>
    if c = '\\' then removeBackslashes rest else c :: removeBackslashes rest

/-- Embeds the body that the Rust macro `parse_xml_tag!` expands to, with the
two concatenated delimiter literals as explicit parameters:

```rust
if res.is_empty() { return None }
let string = res.to_owned();
if let Some(value) = string.split(op).nth(1).unwrap_or("")
                           .split(cl).next() {
    Some(value.to_owned())
} else {
    None
}
```
-/
def parseDelimited (op cl res : List Char) : Option (List Char) :=
  if res = [] then
    none
  else
    match splitNextOpt cl ((splitNth1 op res).getD []) with
    | some value => some value
    | none => none

/-- The opening delimiter `concat!("<", tag, ">")` of `parse_xml_tag!`. -/
def xmlOpen (tag : List Char) : List Char :=
  '<' :: (tag ++ ['>'])

/-- The closing delimiter `concat!("</", tag, ">")` of `parse_xml_tag!`. -/
def xmlClose (tag : List Char) : List Char :=
  '<' :: '/' :: (tag ++ ['>'])

/-- `parse_xml_tag!(f, tag)` generates `f = parseDelimited "<tag>" "</tag>"`. -/
def parseXmlTag (tag : List Char) : List Char → Option (List Char) :=
  parseDelimited (xmlOpen tag) (xmlClose tag)

/-- Embeds the body that the Rust macro `parse_json_tag!` expands to:

```rust
if res.is_empty() { return None }
let string = res.to_owned();
if let Some(value) = string.split(concat!("\"", tag, "\""))
                           .nth(1).unwrap_or("")
                           .split(",").next().unwrap_or("")
                           .split("\"").nth(1) {
    Some(format!(concat!(pre, "{}"), value.to_owned().replace("\\", "")))
} else {
    None
}
```
-/
def parseJsonTag (tag pre res : List Char) : Option (List Char) :=
  if res = [] then
    none
  else
    match splitNth1 ['\"']
        (splitNext [','] ((splitNth1 ('\"' :: (tag ++ ['\"'])) res).getD [])) with
    | some value => some (pre ++ removeBackslashes value)
    | none => none

/-- The `Provider` enum of the source (18 variants). -/
inductive Provider where
  | Abv8
  | BamBz
  | Bmeo
  | BnGy
  | FifoCc
  | HecSu
  | IsGd
  | NowLinks
  | PhxCoIn
  | PsbeCo
  | SCoop
  | Rdd
  | Rlu
  | SirBz
  | TinyUrl
  | TinyPh
  | TnyIm
  | VGd
deriving DecidableEq, BEq, Fintype

/-- Embeds `Provider::to_name`: the domain-name string of each variant. -/
def Provider.to_name : Provider → List Char
  | .Abv8 => "abv8.me".data
  | .BamBz => "bam.bz".data
  | .Bmeo => "bmeo.org".data
  | .BnGy => "bn.gy".data
  | .FifoCc => "fifo.cc".data
  | .HecSu => "hec.su".data
  | .IsGd => "is.gd".data
  | .NowLinks => "nowlinks.net".data
  | .PhxCoIn => "phx.co.in".data
  | .PsbeCo => "psbe.co".data
  | .SCoop => "s.coop".data
  | .SirBz => "sirbz.com".data
  | .Rdd => "readability.com".data
  | .Rlu => "rlu.ru".data
  | .TinyUrl => "tinyurl.com".data
  | .TinyPh => "tiny.ph".data
  | .TnyIm => "tny.im".data
  | .VGd => "v.gd".data

/-- Embeds `pub fn providers() -> Vec<Provider>` (the quality-ordered
catalog list), element for element in source order. -/
def providers : List Provider :=
  [Provider.IsGd,
   Provider.BnGy,
   Provider.VGd,
   Provider.Rdd,
   Provider.BamBz,
   Provider.TinyPh,
   Provider.FifoCc,
   Provider.SCoop,
   Provider.Bmeo,
   Provider.TnyIm,
   Provider.SirBz,
   Provider.Rlu,
   Provider.HecSu,
   Provider.Abv8,
   Provider.TinyUrl,
   Provider.PsbeCo,
   Provider.NowLinks]

/-- `fn abv8_parse`: `Some(res.to_owned())`. -/
def abv8_parse (res : List Char) : Option (List Char) :=
  some res

/-- `parse_json_tag!(bambz_parse, "url", "")`. -/
def bambz_parse : List Char → Option (List Char) :=
  parseJsonTag "url".data "".data

/-- `parse_json_tag!(bmeo_parse, "short", "")`. -/
def bmeo_parse : List Char → Option (List Char) :=
  parseJsonTag "short".data "".data

/-- `parse_xml_tag!(bngy_parse, "ShortenedUrl")`. -/
def bngy_parse : List Char → Option (List Char) :=
  parseXmlTag "ShortenedUrl".data

/-- `parse_json_tag!(fifocc_parse, "shortner", "http://fifo.cc/")`. -/
def fifocc_parse : List Char → Option (List Char) :=
  parseJsonTag "shortner".data "http://fifo.cc/".data

/-- `parse_xml_tag!(hecsu_parse, "short")`. -/
def hecsu_parse : List Char → Option (List Char) :=
  parseXmlTag "short".data

/-- `fn isgd_parse`: `Some(res.to_owned())`. -/
def isgd_parse (res : List Char) : Option (List Char) :=
  some res

/-- `fn nowlinks_parse`: `Some(res.to_owned())`. -/
def nowlinks_parse (res : List Char) : Option (List Char) :=
  some res

/-- `fn phxcoin_parse`: `Some(res.to_owned())`. -/
def phxcoin_parse (res : List Char) : Option (List Char) :=
  some res

/-- `parse_xml_tag!(psbeco_parse, "ShortUrl")`. -/
def psbeco_parse : List Char → Option (List Char) :=
  parseXmlTag "ShortUrl".data

/-- `fn scoop_parse`: `Some(res.to_owned())`. -/
def scoop_parse (res : List Char) : Option (List Char) :=
  some res

/-- `parse_json_tag!(rdd_parse, "rdd_url", "")`. -/
def rdd_parse : List Char → Option (List Char) :=
  parseJsonTag "rdd_url".data "".data

/-- `fn rlu_parse`: `Some(res.to_owned())`. -/
def rlu_parse (res : List Char) : Option (List Char) :=
  some res

/-- `parse_json_tag!(sirbz_parse, "short_link", "")`. -/
def sirbz_parse : List Char → Option (List Char) :=
  parseJsonTag "short_link".data "".data

/-- Embeds the hand-written `fn tinyurl_parse`:

```rust
if res.is_empty() { return None }
let string = res.to_owned();
let value = string.split("data-clipboard-text=\"")
                  .nth(1).unwrap_or("")
                  .split("\">").next();
if let Some(string) = value { Some(string.to_owned()) } else { None }
```
-/
def tinyurl_parse (res : List Char) : Option (List Char) :=
  if res = [] then
    none
  else
    let value := splitNextOpt "\">".data ((splitNth1 "data-clipboard-text=\"".data res).getD [])
    match value with
    | some string => some string
    | none => none

/-- `parse_json_tag!(tinyph_parse, "hash", "http://tiny.ph/")`. -/
def tinyph_parse : List Char → Option (List Char) :=
  parseJsonTag "hash".data "http://tiny.ph/".data

/-- `parse_xml_tag!(tnyim_parse, "shorturl")`. -/
def tnyim_parse : List Char → Option (List Char) :=
  parseXmlTag "shorturl".data

/-- `fn vgd_parse`: `Some(res.to_owned())`. -/
def vgd_parse (res : List Char) : Option (List Char) :=
  some res

/-- Embeds `pub fn parse(res: &str, provider: Provider) -> Option<String>`,
the per-provider dispatch. -/
def parse (res : List Char) : Provider → Option (List Char)
  | .Abv8 => abv8_parse res
  | .BamBz => bambz_parse res
  | .Bmeo => bmeo_parse res
  | .BnGy => bngy_parse res
  | .FifoCc => fifocc_parse res
  | .HecSu => hecsu_parse res
  | .IsGd => isgd_parse res
  | .NowLinks => nowlinks_parse res
  | .PhxCoIn => phxcoin_parse res
  | .PsbeCo => psbeco_parse res
  | .SCoop => scoop_parse res
  | .SirBz => sirbz_parse res
  | .Rdd => rdd_parse res
  | .Rlu => rlu_parse res
  | .TinyUrl => tinyurl_parse res
  | .TinyPh => tinyph_parse res
  | .TnyIm => tnyim_parse res
  | .VGd => vgd_parse res

/-! Basic facts about the split model.  An occurrence of `sep` at index `m`
of `s` is written `∃ u, s.drop m = sep ++ u`. -/

/-- Bridge between the boolean `List.isPrefixOf` used by `findSub` and the
existential description of a prefix. -/
theorem isPrefixOf_iff_exists_append (l t : List Char) :
    l.isPrefixOf t = true ↔ ∃ u, t = l ++ u := by
  induction l generalizing t with
  | nil => simp [List.isPrefixOf]
  | cons a as ih =>
    cases t with
    | nil => simp [List.isPrefixOf]
    | cons b bs =>
      simp only [List.isPrefixOf, Bool.and_eq_true, beq_iff_eq, ih, List.cons_append,
        List.cons.injEq]
      constructor
      · rintro ⟨rfl, u, rfl⟩
        exact ⟨u, rfl, rfl⟩
      · rintro ⟨u, rfl, rfl⟩
        exact ⟨rfl, u, rfl⟩

/-- `findSub` on the empty list fails for non-empty patterns. -/
theorem findSub_nil_of_ne (sep : List Char) (h : sep ≠ []) : findSub sep [] = none := by
  simp [findSub, h]

/-- `findSub` returns `none` exactly when the pattern occurs nowhere. -/
theorem findSub_eq_none_iff (sep s : List Char) :
    findSub sep s = none ↔ ∀ m u, s.drop m ≠ sep ++ u := by
  induction s with
  | nil =>
    by_cases h : sep = []
    · subst h
      constructor
      · intro h'
        simp [findSub] at h'
      · intro h'
        exact (h' 0 [] (by simp)).elim
    · rw [findSub_nil_of_ne sep h]
      constructor
      · intro _ m u heq
        have heq' : sep ++ u = [] := by simpa using heq.symm
        exact h (List.append_eq_nil.mp heq').1
      · intro _
        rfl
  | cons c rest ih =>
    by_cases hp : sep.isPrefixOf (c :: rest) = true
    · constructor
      · intro h'
        simp [findSub, hp] at h'
      · intro h'
        obtain ⟨u, hu⟩ := (isPrefixOf_iff_exists_append sep (c :: rest)).mp hp
        exact absurd hu (by simpa using h' 0 u)
    · have hstep : findSub sep (c :: rest) = (findSub sep rest).map (· + 1) := by
        simp [findSub, hp]
      rw [hstep, Option.map_eq_none', ih]
      constructor
      · intro h' m u
        cases m with
        | zero =>
          intro heq
          exact hp ((isPrefixOf_iff_exists_append sep (c :: rest)).mpr ⟨u, by simpa using heq⟩)
        | succ m => simpa using h' m u
      · intro h' m u
        simpa using h' (m + 1) u

/-- `findSub` returns `some i` only for a leftmost occurrence: the pattern
occurs at `i` and at no smaller index. -/
theorem findSub_spec (sep s : List Char) (i : Nat) (h : findSub sep s = some i) :
    (∃ u, s.drop i = sep ++ u) ∧ ∀ m, m < i → ∀ u, s.drop m ≠ sep ++ u := by
  induction s generalizing i with
  | nil =>
    by_cases hsep : sep = []
    · subst hsep
      have : i = 0 := by simp [findSub] at h; omega
      subst this
      exact ⟨⟨[], rfl⟩, fun m hm => by omega⟩
    · rw [findSub_nil_of_ne sep hsep] at h
      cases h
  | cons c rest ih =>
    by_cases hp : sep.isPrefixOf (c :: rest) = true
    · have : i = 0 := by simp [findSub, hp] at h; omega
      subst this
      obtain ⟨u, hu⟩ := (isPrefixOf_iff_exists_append sep (c :: rest)).mp hp
      exact ⟨⟨u, by simpa using hu⟩, fun m hm => by omega⟩
    · have hstep : findSub sep (c :: rest) = (findSub sep rest).map (· + 1) := by
        simp [findSub, hp]
      rw [hstep, Option.map_eq_some'] at h
      obtain ⟨i', hi', rfl⟩ := h
      obtain ⟨⟨u, hu⟩, hmin⟩ := ih i' hi'
      refine ⟨⟨u, by simpa using hu⟩, ?_⟩
      intro m hm u'
      cases m with
      | zero =>
        intro heq
        exact hp ((isPrefixOf_iff_exists_append sep (c :: rest)).mpr ⟨u', by simpa using heq⟩)
      | succ m =>
        intro heq
        exact hmin m (by omega) u' (by simpa using heq)

/-- Converse of `findSub_spec`: a leftmost occurrence determines `findSub`. -/
theorem findSub_eq_some_of (sep s : List Char) (j : Nat)
    (hocc : ∃ u, s.drop j = sep ++ u)
    (hmin : ∀ m, m < j → ∀ u, s.drop m ≠ sep ++ u) :
    findSub sep s = some j := by
  induction s generalizing j with
  | nil =>
    obtain ⟨u, hu⟩ := hocc
    have hsep : sep = [] := by
      have h2 : sep ++ u = [] := by simpa using hu.symm
      exact (List.append_eq_nil.mp h2).1
    subst hsep
    cases j with
    | zero => simp [findSub]
    | succ j => exact (hmin 0 (by omega) [] (by simp)).elim
  | cons c rest ih =>
    cases j with
    | zero =>
      have hp : sep.isPrefixOf (c :: rest) = true :=
        (isPrefixOf_iff_exists_append sep (c :: rest)).mpr (by simpa using hocc)
      simp [findSub, hp]
    | succ j =>
      have hp : ¬ sep.isPrefixOf (c :: rest) = true := by
        intro hp
        obtain ⟨u, hu⟩ := (isPrefixOf_iff_exists_append sep (c :: rest)).mp hp
        exact hmin 0 (by omega) u (by simpa using hu)
      have hrec := ih j (by simpa using hocc)
        (fun m hm u heq => hmin (m + 1) (by omega) u (by simpa using heq))
      simp [findSub, hp, hrec]

/-- `splitNext` when the separator is absent. -/
theorem splitNext_of_none (sep s : List Char) (h : findSub sep s = none) :
    splitNext sep s = s := by
  simp [splitNext, h]

/-- `splitNext` when the separator first occurs at `i`. -/
theorem splitNext_of_some (sep s : List Char) (i : Nat) (h : findSub sep s = some i) :
    splitNext sep s = s.take i := by
  simp [splitNext, h]

/-- `splitNext` of the empty list is empty. -/
theorem splitNext_nil (sep : List Char) : splitNext sep [] = [] := by
  unfold splitNext
  cases h : findSub sep [] <;> simp

/-- An occurrence inside a `take` window is an occurrence in the whole list. -/
theorem occ_of_take (X p : List Char) (n m : Nat)
    (h : ∃ u, (X.take n).drop m = p ++ u) : ∃ v, X.drop m = p ++ v := by
  obtain ⟨u, hu⟩ := h
  rw [List.drop_take] at hu
  by_cases hlen : p.length ≤ n - m
  · have h1 : (X.drop m).take p.length = p := by
      have h2 := congrArg (List.take p.length) hu
      rw [List.take_take, min_eq_left hlen, List.take_append_eq_append_take,
        List.take_of_length_le (le_refl p.length), Nat.sub_self, List.take_zero,
        List.append_nil] at h2
      exact h2
    refine ⟨(X.drop m).drop p.length, ?_⟩
    conv_lhs => rw [← List.take_append_drop p.length (X.drop m)]
    rw [h1]
  · exfalso
    have h2 := congrArg List.length hu
    rw [List.length_take, List.length_append] at h2
    omega

/-- An occurrence that fits inside the first `n` elements survives `take n`. -/
theorem occ_into_take (X p : List Char) (n m : Nat) (hroom : m + p.length ≤ n)
    (h : ∃ u, X.drop m = p ++ u) : ∃ v, (X.take n).drop m = p ++ v := by
  obtain ⟨u, hu⟩ := h
  refine ⟨u.take (n - m - p.length), ?_⟩
  rw [List.drop_take, hu, List.take_append_eq_append_take,
    List.take_of_length_le (by omega)]

/-- If the separator occurs nowhere, it occurs nowhere in any `take` window. -/
theorem findSub_take_none (p X : List Char) (k : Nat) (h : findSub p X = none) :
    findSub p (X.take k) = none := by
  rw [findSub_eq_none_iff] at h ⊢
  intro m u hmu
  obtain ⟨v, hv⟩ := occ_of_take X p k m ⟨u, hmu⟩
  exact h m v hv

/-- The head of a list extended on the right. -/
theorem append_head_left (x w : List Char) (hx : x ≠ []) :
    (x ++ w).head? = x.head? := by
  cases x with
  | nil => exact absurd rfl hx
  | cons a t => rfl

/-- No positive-index character of the opening delimiter is `'<'` when the
tag itself contains none. -/
theorem xmlOpen_getElem_ne (tag : List Char) (hlt : '<' ∉ tag) (d : Nat) (hd : 0 < d) :
    (xmlOpen tag)[d]? ≠ some '<' := by
  cases d with
  | zero => omega
  | succ d =>
    intro h
    rw [xmlOpen, List.getElem?_cons_succ] at h
    have hmem : '<' ∈ tag ++ ['>'] := List.getElem?_mem h
    rcases List.mem_append.mp hmem with h1 | h1
    · exact hlt h1
    · simp at h1

/-- No positive-index character of the closing delimiter is `'<'` when the
tag itself contains none. -/
theorem xmlClose_getElem_ne (tag : List Char) (hlt : '<' ∉ tag) (d : Nat) (hd : 0 < d) :
    (xmlClose tag)[d]? ≠ some '<' := by
  cases d with
  | zero => omega
  | succ d =>
    intro h
    rw [xmlClose, List.getElem?_cons_succ] at h
    cases d with
    | zero => simp at h
    | succ d =>
      rw [List.getElem?_cons_succ] at h
      have hmem : '<' ∈ tag ++ ['>'] := List.getElem?_mem h
      rcases List.mem_append.mp hmem with h1 | h1
      · exact hlt h1
      · simp at h1

/-- The opening delimiter is not an initial segment of the closing one when
the tag does not contain `'/'`. -/
theorem xmlOpen_ne_take_close (tag : List Char) (hsl : '/' ∉ tag) :
    xmlOpen tag ≠ (xmlClose tag).take (xmlOpen tag).length := by
  have hlen : (xmlOpen tag).length = tag.length + 2 := by simp [xmlOpen]
  have htake : (xmlClose tag).take (tag.length + 2)
      = '<' :: '/' :: tag := by
    rw [xmlClose]
    simp only [List.take_succ_cons]
    congr 1
    congr 1
    exact List.take_left tag ['>']
  rw [hlen, htake, xmlOpen]
  intro h
  have h2 : tag ++ ['>'] = '/' :: tag := by
    simpa using h
  cases tag with
  | nil => simp at h2
  | cons t ts =>
    have : t = '/' := by
      have := congrArg List.head? h2
      simpa using this
    exact hsl (this ▸ List.mem_cons_self t ts)

/-- Core of the corrected C4 claim, stated for abstract delimiters: if `cl`
first occurs at `j` in `X`, and `op` has no occurrence that fits inside
`X.take j`, and the two delimiters cannot overlap (expressed through head
characters) and `op` is not an initial segment of `cl`, then splitting on
`op` first (keeping the segment up to its next occurrence) and then on `cl`
yields exactly `X.take j`. -/
theorem splitNext_close_spec (op cl X : List Char) (j : Nat)
    (hcl : findSub cl X = some j)
    (hnr : findSub op (X.take j) = none)
    (hol : 0 < op.length) (hlen : op.length < cl.length)
    (hOinC : ∀ d, 0 < d → (cl.drop d).head? ≠ op.head?)
    (hCinO : ∀ d, 0 < d → (op.drop d).head? ≠ cl.head?)
    (hOnotC : op ≠ cl.take op.length) :
    splitNext cl (splitNext op X) = X.take j := by
  have hopne : op ≠ [] := by
    intro h
    rw [h] at hol
    simp at hol
  have hclne : cl ≠ [] := by
    intro h
    rw [h] at hlen
    simp at hlen
  rcases hk : findSub op X with _ | k
  · rw [splitNext_of_none _ _ hk, splitNext_of_some _ _ _ hcl]
  · obtain ⟨⟨u, hu⟩, hminK⟩ := findSub_spec _ _ _ hk
    obtain ⟨⟨w, hw⟩, hminJ⟩ := findSub_spec _ _ _ hcl
    have hnro := (findSub_eq_none_iff _ _).mp hnr
    have hk_ge : j + cl.length ≤ k := by
      by_contra hcon
      push_neg at hcon
      rcases lt_trichotomy k j with h1 | h1 | h1
      · by_cases h2 : k + op.length ≤ j
        · obtain ⟨v, hv⟩ := occ_into_take X op j k h2 ⟨u, hu⟩
          exact hnro k v hv
        · push_neg at h2
          have hdd : X.drop j = op.drop (j - k) ++ u := by
            have h3 : X.drop j = (X.drop k).drop (j - k) := by
              rw [List.drop_drop]
              congr 1
              omega
            rw [h3, hu, List.drop_append_eq_append_drop,
              (show j - k - op.length = 0 by omega), List.drop_zero]
          have hne : op.drop (j - k) ≠ [] := by
            rw [ne_eq, List.drop_eq_nil_iff]
            omega
          have hhead : (op.drop (j - k)).head? = cl.head? := by
            have h4 := congrArg List.head? (hw.symm.trans hdd)
            rw [append_head_left _ _ hclne, append_head_left _ _ hne] at h4
            exact h4.symm
          exact hCinO (j - k) (by omega) hhead
      · subst h1
        have heq : op ++ u = cl ++ w := hu.symm.trans hw
        have h3 : op = cl.take op.length := by
          have h4 := congrArg (List.take op.length) heq
          rw [List.take_append_eq_append_take, List.take_append_eq_append_take,
            List.take_of_length_le (le_refl op.length), Nat.sub_self, List.take_zero,
            List.append_nil, (show op.length - cl.length = 0 by omega), List.take_zero,
            List.append_nil] at h4
          exact h4
        exact hOnotC h3
      · have hdd : X.drop k = cl.drop (k - j) ++ w := by
          have h3 : X.drop k = (X.drop j).drop (k - j) := by
            rw [List.drop_drop]
            congr 1
            omega
          rw [h3, hw, List.drop_append_eq_append_drop,
            (show k - j - cl.length = 0 by omega), List.drop_zero]
        have hne : cl.drop (k - j) ≠ [] := by
          rw [ne_eq, List.drop_eq_nil_iff]
          omega
        have hhead : (cl.drop (k - j)).head? = op.head? := by
          have h4 := congrArg List.head? (hu.symm.trans hdd)
          rw [append_head_left _ _ hopne, append_head_left _ _ hne] at h4
          exact h4.symm
        exact hOinC (k - j) (by omega) hhead
    rw [splitNext_of_some _ _ _ hk]
    have hfind : findSub cl (X.take k) = some j := by
      apply findSub_eq_some_of
      · exact occ_into_take X cl k j (by omega) ⟨w, hw⟩
      · intro m hm v hv
        obtain ⟨v', hv'⟩ := occ_of_take X cl k m ⟨v, hv⟩
        exact hminJ m hm v' hv'
    rw [splitNext_of_some _ _ _ hfind, List.take_take, min_eq_left (by omega)]

/-- For non-empty input, the `parse_xml_tag` body reduces to the split
chain (the inner `split(...).next()` is always `Some`, so the `else None`
branch of the source is dead). -/
theorem parseXmlTag_cons (tag res : List Char) (h : res ≠ []) :
    parseXmlTag tag res
      = some (splitNext (xmlClose tag) ((splitNth1 (xmlOpen tag) res).getD [])) := by
  simp [parseXmlTag, parseDelimited, splitNextOpt, h]

/-- For non-empty input, `tinyurl_parse` reduces to its split chain. -/
theorem tinyurl_parse_cons (res : List Char) (h : res ≠ []) :
    tinyurl_parse res
      = some (splitNext "\">".data ((splitNth1 "data-clipboard-text=\"".data res).getD [])) := by
  simp [tinyurl_parse, splitNextOpt, h]

/-- `splitAllAux` with enough fuel starts with `splitNext`. -/
theorem splitAllAux_head (sep : List Char) (fuel : Nat) (s : List Char)
    (hfuel : s.length ≤ fuel) :
    (splitAllAux sep fuel s).head? = some (splitNext sep s) := by
  cases fuel with
  | zero =>
    have hs : s = [] := by
      cases s with
      | nil => rfl
      | cons c r => simp at hfuel
    subst hs
    simp [splitAllAux, splitNext_nil]
  | succ fuel =>
    cases h : findSub sep s with
    | none => simp [splitAllAux, h, splitNext_of_none sep s h]
    | some i => simp [splitAllAux, h, splitNext_of_some sep s i h]

/-- Certification of the split model: `splitNext` is the first element of
the full segment list of `s.split(sep)`. -/
theorem splitAll_head (sep s : List Char) :
    (splitAll sep s).head? = some (splitNext sep s) :=
  splitAllAux_head sep s.length s (le_refl s.length)

/-- Certification of the split model: `splitNth1` is the second element of
the full segment list of `s.split(sep)` (for a non-empty separator, the
only kind the source uses). -/
theorem splitAll_second (sep s : List Char) (hsep : sep ≠ []) :
    (splitAll sep s)[1]? = splitNth1 sep s := by
  unfold splitAll
  cases h : findSub sep s with
  | none =>
    cases s with
    | nil => simp [splitAllAux, splitNth1, h]
    | cons c r =>
      simp only [List.length_cons, splitAllAux, h]
      simp [splitNth1, h]
  | some i =>
    cases s with
    | nil =>
      rw [findSub_nil_of_ne sep hsep] at h
      cases h
    | cons c r =>
      have hseplen : 0 < sep.length := List.length_pos.mpr hsep
      have hlen : ((c :: r).drop (i + sep.length)).length ≤ r.length := by
        rw [List.length_drop]
        simp only [List.length_cons]
        omega
      simp only [List.length_cons, splitAllAux, h]
      rw [splitNth1, h, Option.map_some']
      simp only [List.getElem?_cons_succ]
      rw [← List.head?_eq_getElem?]
      exact splitAllAux_head sep r.length ((c :: r).drop (i + sep.length)) hlen

/-- The backslash character never survives `removeBackslashes`. -/
theorem backslash_not_mem_removeBackslashes (l : List Char) :
    '\\' ∉ removeBackslashes l := by
  induction l with
  | nil => simp [removeBackslashes]
  | cons c rest ih =>
    by_cases h : c = '\\'
    · simpa [removeBackslashes, h] using ih
    · simp only [removeBackslashes, if_neg h, List.mem_cons]
      rintro (h2 | h2)
      · exact h h2.symm
      · exact ih h2

/-- `removeBackslashes` is exactly the deletion of every backslash. -/
theorem removeBackslashes_eq_filter (l : List Char) :
    removeBackslashes l = l.filter fun c => c != '\\' := by
  induction l with
  | nil => simp [removeBackslashes]
  | cons c rest ih =>
    by_cases h : c = '\\' <;> simp [removeBackslashes, List.filter_cons, h, ih]

/-- C1: the claim says `providers()` contains every `Provider` variant
exactly once.  On the code this fails: the 17-element list omits
`Provider::PhxCoIn` (the enum has 18 variants) while containing every other
variant exactly once — contradicting the claim and the function's own doc
comment ("Returns a vector of all `Provider` variants"). -/
theorem providers_omits_PhxCoIn :
    ∀ p : Provider, providers.count p = if p = Provider.PhxCoIn then 0 else 1 := by
  decide

/-- C2 counterexample: the passthrough parse functions have no emptiness
check; on the empty input they return `Some ""`, not `None` as claimed. -/
theorem passthrough_empty_input_cex :
    isgd_parse [] = some [] ∧ abv8_parse [] = some [] ∧ vgd_parse [] = some [] :=
  ⟨rfl, rfl, rfl⟩

/-- C2 (amended): every passthrough parse function returns `Some` of the
entire input for every input string, the empty string included; it never
returns `None`. -/
theorem passthrough_parse_eq_some_self :
    ∀ res : List Char,
      isgd_parse res = some res ∧ abv8_parse res = some res ∧ vgd_parse res = some res ∧
      nowlinks_parse res = some res ∧ phxcoin_parse res = some res ∧
      scoop_parse res = some res ∧ rlu_parse res = some res :=
  fun _ => ⟨rfl, rfl, rfl, rfl, rfl, rfl, rfl⟩

/-- C3 counterexample: on the non-empty input `"x"` the opening delimiter
does not occur, yet `bngy_parse` returns `Some ""` rather than `None`; with
the closing delimiter missing it returns `Some "abc"` rather than `None`. -/
theorem bngy_parse_missing_delims_cex :
    bngy_parse ['x'] = some []
    ∧ bngy_parse "<ShortenedUrl>abc".data = some "abc".data := by
  decide

/-- C3 (amended): delimiter-bounded extraction returns `None` exactly when
the input is empty; an absent opening or closing delimiter still yields a
`Some` result (the `split(..).next()` of the source is always `Some`). -/
theorem parseXmlTag_eq_none_iff (tag res : List Char) :
    parseXmlTag tag res = none ↔ res = [] := by
  by_cases h : res = [] <;> simp [parseXmlTag, parseDelimited, splitNextOpt, h]

/-- C4 counterexample: in
`"<ShortenedUrl>a<ShortenedUrl>b</ShortenedUrl>"` the opening delimiter
occurs (at index 0) and the closing delimiter occurs after it; the substring
strictly between the first opening delimiter and the first closing delimiter
after it is `"a<ShortenedUrl>b"`, but `bngy_parse` splits at the second
opening delimiter and returns `Some "a"`. -/
theorem bngy_parse_repeated_open_cex :
    bngy_parse "<ShortenedUrl>a<ShortenedUrl>b</ShortenedUrl>".data = some ['a']
    ∧ ['a'] ≠ "a<ShortenedUrl>b".data := by
  decide

/-- C4 (amended): for every input in which the opening delimiter occurs and
the first occurrence of the closing delimiter after it comes before any
further (complete) occurrence of the opening delimiter, the macro-generated
parsers return `Some` of exactly the substring strictly between the first
opening delimiter and that closing delimiter (for tags that contain neither
`<` nor `/`, which all the source's tags satisfy). -/
theorem parseXmlTag_between (tag res : List Char) (i j : Nat)
    (hlt : '<' ∉ tag) (hsl : '/' ∉ tag)
    (hop : findSub (xmlOpen tag) res = some i)
    (hcl : findSub (xmlClose tag) (res.drop (i + (xmlOpen tag).length)) = some j)
    (hnr : findSub (xmlOpen tag) ((res.drop (i + (xmlOpen tag).length)).take j) = none) :
    parseXmlTag tag res = some ((res.drop (i + (xmlOpen tag).length)).take j) := by
  have hres : res ≠ [] := by
    rintro rfl
    rw [findSub_nil_of_ne (xmlOpen tag) (by simp [xmlOpen])] at hop
    cases hop
  rw [parseXmlTag_cons tag res hres, splitNth1, hop, Option.map_some', Option.getD_some]
  congr 1
  apply splitNext_close_spec (xmlOpen tag) (xmlClose tag)
    (res.drop (i + (xmlOpen tag).length)) j hcl hnr
  · simp [xmlOpen]
  · simp only [xmlOpen, xmlClose, List.length_cons, List.length_append]
    omega
  · intro d hd
    rw [List.head?_drop]
    intro hcontra
    rw [(show (xmlOpen tag).head? = some '<' from rfl)] at hcontra
    exact xmlClose_getElem_ne tag hlt d hd hcontra
  · intro d hd
    rw [List.head?_drop]
    intro hcontra
    rw [(show (xmlClose tag).head? = some '<' from rfl)] at hcontra
    exact xmlOpen_getElem_ne tag hlt d hd hcontra
  · exact xmlOpen_ne_take_close tag hsl

/-- C4 witness: the amended theorem applied at the spec's own example,
`bngy_parse "<ShortenedUrl>http://x.co/1</ShortenedUrl>"`. -/
theorem parseXmlTag_between_witness :
    bngy_parse "<ShortenedUrl>http://x.co/1</ShortenedUrl>".data
      = some "http://x.co/1".data := by
  have h := parseXmlTag_between "ShortenedUrl".data
    "<ShortenedUrl>http://x.co/1</ShortenedUrl>".data 0 13
    (by decide) (by decide) (by decide) (by decide) (by decide)
  exact h.trans (by decide)

/-- C5: keyed-field extraction on the spec's two examples: field `"short"`
with empty prefix extracts `"http://b.io/ab"` from the bmeo-style response,
and field `"shortner"` with prefix `"http://fifo.cc/"` turns `"xYz"` into
`"http://fifo.cc/xYz"`. -/
theorem parseJsonTag_examples :
    bmeo_parse "\x7b\"short\":\"http://b.io/ab\",\"status\":1\x7d".data
        = some "http://b.io/ab".data
    ∧ fifocc_parse "\x7b\"shortner\":\"xYz\"\x7d".data = some "http://fifo.cc/xYz".data := by
  decide

/-- C6: whenever keyed-field extraction succeeds, the returned value is the
literal prefix followed by the extracted raw value with every backslash
character deleted (crude unescaping), so the part after the prefix contains
no backslash. -/
theorem parseJsonTag_strips_backslashes (tag pre res v : List Char)
    (h : parseJsonTag tag pre res = some v) :
    ∃ raw, v = pre ++ removeBackslashes raw ∧ '\\' ∉ removeBackslashes raw := by
  by_cases hres : res = []
  · rw [hres] at h
    simp [parseJsonTag] at h
  · rcases hm : splitNth1 ['\"']
        (splitNext [','] ((splitNth1 ('\"' :: (tag ++ ['\"'])) res).getD [])) with _ | value
    · simp [parseJsonTag, hres, hm] at h
    · refine ⟨value, ?_, backslash_not_mem_removeBackslashes value⟩
      simp only [parseJsonTag, if_neg hres, hm, Option.some.injEq] at h
      exact h.symm

/-- C6 witness: applied to the escaped response
`{"short":"ht\/tp"}`, whose extracted value `ht\/tp` loses its backslash. -/
theorem parseJsonTag_strips_backslashes_witness :
    ∃ raw, "ht/tp".data = "".data ++ removeBackslashes raw
      ∧ '\\' ∉ removeBackslashes raw :=
  parseJsonTag_strips_backslashes "short".data "".data
    "\x7b\"short\":\"ht\\/tp\"\x7d".data "ht/tp".data (by decide)

/-- C7: the per-provider `parse` dispatch is a total function: for every
provider and every input string it returns either `Some` of a string or
`None` (every fallible string operation of the source — `nth`, `next` — is
used through `unwrap_or` or an `if let`, so no input can make it panic). -/
theorem parse_total (provider : Provider) (res : List Char) :
    parse res provider = none ∨ ∃ v, parse res provider = some v := by
  cases h : parse res provider with
  | none => exact Or.inl rfl
  | some v => exact Or.inr ⟨v, rfl⟩

/-- C8: the hand-written `tinyurl_parse` computes exactly the
`parse_xml_tag` algorithm instantiated with opening delimiter
`data-clipboard-text="` and closing delimiter `">` — same algorithm,
different delimiter pair. -/
theorem tinyurl_parse_eq_parseDelimited :
    ∀ res : List Char,
      tinyurl_parse res = parseDelimited "data-clipboard-text=\"".data "\">".data res :=
  fun _ => rfl

/-- C9: `Provider::to_name` is total over the enum (it is a complete match)
and returns a non-empty domain string for every variant. -/
theorem to_name_nonempty : ∀ p : Provider, 0 < p.to_name.length := by
  decide

/-- C10 counterexample: with the closing delimiter absent and the opening
delimiter occurring twice, `bngy_parse "<ShortenedUrl>a<ShortenedUrl>b"`
returns `Some "a"` (the segment between the two openings), not `Some` of
the entire remainder `"a<ShortenedUrl>b"` after the first opening. -/
theorem bngy_parse_second_segment_cex :
    bngy_parse "<ShortenedUrl>a<ShortenedUrl>b".data = some ['a']
    ∧ ['a'] ≠ "a<ShortenedUrl>b".data := by
  decide

/-- C10 (amended): for the `parse_xml_tag` parsers and `tinyurl_parse`, the
result is `None` if and only if the input is empty; in particular the
result is `Some ""` when the opening delimiter is absent, and, when the
closing delimiter is absent after the first opening delimiter, `Some` of
the segment from the first occurrence of the opening delimiter up to its
next occurrence (the entire remainder when it does not recur). -/
theorem parseXmlTag_result_cases :
    (∀ tag : List Char, parseXmlTag tag [] = none)
    ∧ (∀ res : List Char, tinyurl_parse res = none ↔ res = [])
    ∧ (∀ (tag res : List Char), res ≠ [] → ∃ v, parseXmlTag tag res = some v)
    ∧ (∀ (tag res : List Char), res ≠ [] → findSub (xmlOpen tag) res = none →
        parseXmlTag tag res = some [])
    ∧ (∀ (tag res : List Char) (i : Nat), findSub (xmlOpen tag) res = some i →
        findSub (xmlClose tag) (res.drop (i + (xmlOpen tag).length)) = none →
        parseXmlTag tag res
          = some (splitNext (xmlOpen tag) (res.drop (i + (xmlOpen tag).length)))) := by
  refine ⟨?_, ?_, ?_, ?_, ?_⟩
  · intro tag
    rfl
  · intro res
    by_cases h : res = [] <;> simp [tinyurl_parse, splitNextOpt, h]
  · intro tag res h
    exact ⟨_, parseXmlTag_cons tag res h⟩
  · intro tag res h hnone
    rw [parseXmlTag_cons tag res h]
    simp [splitNth1, hnone, splitNext_nil]
  · intro tag res i hop hclnone
    have hres : res ≠ [] := by
      rintro rfl
      rw [findSub_nil_of_ne (xmlOpen tag) (by simp [xmlOpen])] at hop
      cases hop
    rw [parseXmlTag_cons tag res hres, splitNth1, hop, Option.map_some', Option.getD_some]
    congr 1
    rcases hk : findSub (xmlOpen tag) (res.drop (i + (xmlOpen tag).length)) with _ | k
    · rw [splitNext_of_none _ _ hk]
      exact splitNext_of_none _ _ hclnone
    · rw [splitNext_of_some _ _ _ hk]
      exact splitNext_of_none _ _ (findSub_take_none _ _ k hclnone)

/-- C10 witness: the closing-delimiter-absent case of the amended theorem at
a concrete input where the opening delimiter occurs once. -/
theorem parseXmlTag_result_cases_witness :
    bngy_parse "<ShortenedUrl>abc".data = some "abc".data := by
  have h := parseXmlTag_result_cases.2.2.2.2 "ShortenedUrl".data "<ShortenedUrl>abc".data 0
    (by decide) (by decide)
  exact h.trans (by decide)

end UrlShortener
